import Mathlib

/-!
Verification of the 2D geodesic ray-tracing core of `src/main_2d.rs`
(eclipse1605/blackhole).

The embedding idealizes the source's `f64` arithmetic as real arithmetic:
every field of every state is a real number, `sqrt` is `Real.sqrt`,
`atan2` is modelled through `Complex.arg`, and Rust's total float division
corresponds to Lean's total real division.  Control flow (the horizon test,
the escape test, the trail decimation policy, `retain_mut`) is translated
branch for branch from the source.
-/

namespace Blackhole

noncomputable section

/-- Gravitational constant, `const G` in `main_2d.rs`. -/
def G : ℝ := 6.67430e-11

/-- Speed of light, `const C` in `main_2d.rs`. -/
def C : ℝ := 299792458.0

/-- The `Ray` struct of `main_2d.rs`: Cartesian position, polar state,
trail of Cartesian points, and the two motion constants. -/
structure Ray where
  x : ℝ
  y : ℝ
  r : ℝ
  phi : ℝ
  dr : ℝ
  dphi : ℝ
  trail : List (ℝ × ℝ)
  e : ℝ
  l : ℝ

/-- `fn geodesic_rhs(ray, out, rs)` from `main_2d.rs` (lines 206-222),
returning the four components of `out` as a tuple. -/
def geodesic_rhs (ray : Ray) (rs : ℝ) : ℝ × ℝ × ℝ × ℝ :=
  let r := ray.r
  let dr := ray.dr
  let dphi := ray.dphi
  let e := ray.e
  let f := 1 - rs / r
  let dt_dlambda := e / f
  (dr, dphi,
    -(rs / (2 * r * r)) * f * (dt_dlambda * dt_dlambda)
      + (rs / (2 * r * r * f)) * (dr * dr)
      + (r - rs) * (dphi * dphi),
    -2 * dr * dphi / r)

/-- `fn add_state(a, b, factor, out)` from `main_2d.rs` (lines 224-228). -/
def add_state (a b : ℝ × ℝ × ℝ × ℝ) (factor : ℝ) : ℝ × ℝ × ℝ × ℝ :=
  (a.1 + b.1 * factor, a.2.1 + b.2.1 * factor,
   a.2.2.1 + b.2.2.1 * factor, a.2.2.2 + b.2.2.2 * factor)

/-- The cloned intermediate ray of `rk4_step`: the four dynamical fields are
overwritten, everything else (in particular `e` and `l`) is kept. -/
def setState (ray : Ray) (v : ℝ × ℝ × ℝ × ℝ) : Ray :=
  { ray with r := v.1, phi := v.2.1, dr := v.2.2.1, dphi := v.2.2.2 }

/-- `fn rk4_step(ray, dlam, rs)` from `main_2d.rs` (lines 230-259). -/
def rk4_step (ray : Ray) (dlam rs : ℝ) : Ray :=
  let y0 : ℝ × ℝ × ℝ × ℝ := (ray.r, ray.phi, ray.dr, ray.dphi)
  let k1 := geodesic_rhs ray rs
  let r2 := setState ray (add_state y0 k1 (dlam / 2))
  let k2 := geodesic_rhs r2 rs
  let r3 := setState ray (add_state y0 k2 (dlam / 2))
  let k3 := geodesic_rhs r3 rs
  let r4 := setState ray (add_state y0 k3 dlam)
  let k4 := geodesic_rhs r4 rs
  { ray with
    r := ray.r + (dlam / 6) * (k1.1 + 2 * k2.1 + 2 * k3.1 + k4.1),
    phi := ray.phi + (dlam / 6) * (k1.2.1 + 2 * k2.2.1 + 2 * k3.2.1 + k4.2.1),
    dr := ray.dr + (dlam / 6) * (k1.2.2.1 + 2 * k2.2.2.1 + 2 * k3.2.2.1 + k4.2.2.1),
    dphi := ray.dphi + (dlam / 6) * (k1.2.2.2 + 2 * k2.2.2.2 + 2 * k3.2.2.2 + k4.2.2.2) }

/-- The right-hand side of the geodesic system exactly as the spec states it
(§4.3): `d(dr)/dλ = -(rs/(2r²))·f·(e/f)² + (rs/(2r²f))·dr² + (r-rs)·dphi²`
and `d(dphi)/dλ = -2·dr·dphi/r`, on a bare 4-vector with `e` held fixed. -/
def rhsSpec (rs e : ℝ) (v : ℝ × ℝ × ℝ × ℝ) : ℝ × ℝ × ℝ × ℝ :=
  let r := v.1
  let dr := v.2.2.1
  let dphi := v.2.2.2
  let f := 1 - rs / r
  (dr, dphi,
    -(rs / (2 * r ^ 2)) * f * (e / f) ^ 2
      + rs / (2 * r ^ 2 * f) * dr ^ 2
      + (r - rs) * dphi ^ 2,
    -2 * dr * dphi / r)

/-- The classical 4-stage Runge-Kutta update as the spec words it (§4.4):
`k1` at the state, `k2`/`k3` at half-step perturbations, `k4` at a full-step
perturbation, combined as `state + (dλ/6)·(k1 + 2k2 + 2k3 + k4)`. -/
def rk4Spec (rs e dlam : ℝ) (v : ℝ × ℝ × ℝ × ℝ) : ℝ × ℝ × ℝ × ℝ :=
  let k1 := rhsSpec rs e v
  let k2 := rhsSpec rs e (v + (dlam / 2) • k1)
  let k3 := rhsSpec rs e (v + (dlam / 2) • k2)
  let k4 := rhsSpec rs e (v + dlam • k3)
  v + (dlam / 6) • (k1 + (2 : ℝ) • k2 + (2 : ℝ) • k3 + k4)

lemma geodesic_rhs_eq (ray : Ray) (rs : ℝ) :
    geodesic_rhs ray rs = rhsSpec rs ray.e (ray.r, ray.phi, ray.dr, ray.dphi) := by
  simp only [geodesic_rhs, rhsSpec, Prod.mk.injEq]
  ring_nf
  try trivial

lemma geodesic_rhs_setState (ray : Ray) (v : ℝ × ℝ × ℝ × ℝ) (rs : ℝ) :
    geodesic_rhs (setState ray v) rs = rhsSpec rs ray.e v := by
  simp only [geodesic_rhs, setState, rhsSpec, Prod.mk.injEq]
  ring_nf
  try trivial

lemma add_state_eq (a b : ℝ × ℝ × ℝ × ℝ) (factor : ℝ) :
    add_state a b factor = a + factor • b := by
  obtain ⟨a1, a2, a3, a4⟩ := a
  obtain ⟨b1, b2, b3, b4⟩ := b
  simp only [add_state, Prod.mk_add_mk, Prod.smul_mk, smul_eq_mul, Prod.mk.injEq]
  ring_nf
  try trivial

lemma rk4_core (ray : Ray) (dlam rs : ℝ) :
    ((rk4_step ray dlam rs).r, (rk4_step ray dlam rs).phi,
     (rk4_step ray dlam rs).dr, (rk4_step ray dlam rs).dphi)
      = rk4Spec rs ray.e dlam (ray.r, ray.phi, ray.dr, ray.dphi) := by
  have hv : ∀ (k : ℝ × ℝ × ℝ × ℝ) (c : ℝ),
      geodesic_rhs (setState ray
        (add_state (ray.r, ray.phi, ray.dr, ray.dphi) k c)) rs
        = rhsSpec rs ray.e ((ray.r, ray.phi, ray.dr, ray.dphi) + c • k) := by
    intro k c
    rw [geodesic_rhs_setState, add_state_eq]
  simp only [rk4_step, rk4Spec]
  rw [geodesic_rhs_eq, hv, hv, hv]
  simp only [Prod.ext_iff, Prod.fst_add, Prod.snd_add, Prod.smul_fst, Prod.smul_snd,
    smul_eq_mul]
  trivial

/-- Claim C1: for every ray state with `r > 0`, `r ≠ rs` and every step size
`dlam`, one integrator step advances the 4-vector `(r, phi, dr, dphi)` by
exactly one classical 4-stage Runge-Kutta update of the §4.3 right-hand side:
`k1` at the state, `k2`/`k3` at half-step perturbations, `k4` at a full-step
perturbation, combined as `state + (dlam/6)·(k1 + 2k2 + 2k3 + k4)`, holding
`e` fixed. -/
theorem rk4_step_is_classical_rk4 (ray : Ray) (dlam rs : ℝ)
    (h1 : 0 < ray.r) (h2 : ray.r ≠ rs) :
    ((rk4_step ray dlam rs).r, (rk4_step ray dlam rs).phi,
     (rk4_step ray dlam rs).dr, (rk4_step ray dlam rs).dphi)
      = rk4Spec rs ray.e dlam (ray.r, ray.phi, ray.dr, ray.dphi) :=
  rk4_core ray dlam rs

/-- A concrete radially infalling test state: `r = 3`, `phi = 0`, `dr = -3`,
`dphi = 0`, `e = 0`, `l = 0`, trail holding its spawn point. -/
def cexRay : Ray :=
  { x := 3, y := 0, r := 3, phi := 0, dr := -3, dphi := 0,
    trail := [(3, 0)], e := 0, l := 0 }

/-- Witness for claim C1 at the concrete state `cexRay` with `dlam = 1`,
`rs = 1`. -/
theorem rk4_step_is_classical_rk4_witness :
    (0 : ℝ) < cexRay.r ∧ cexRay.r ≠ 1 ∧
    ((rk4_step cexRay 1 1).r, (rk4_step cexRay 1 1).phi,
     (rk4_step cexRay 1 1).dr, (rk4_step cexRay 1 1).dphi)
      = rk4Spec 1 cexRay.e 1 (cexRay.r, cexRay.phi, cexRay.dr, cexRay.dphi) :=
  ⟨by norm_num [cexRay], by norm_num [cexRay],
   rk4_step_is_classical_rk4 cexRay 1 1 (by norm_num [cexRay]) (by norm_num [cexRay])⟩

/-- The mathematical content of `f64::atan2`: `atan2 y x` is the argument of
the complex number `x + y·i`, valued in `(-π, π]` with `atan2 0 0 = 0`. -/
def atan2 (y x : ℝ) : ℝ := Complex.arg ⟨x, y⟩

/-- `Ray::new(pos, dir, rs)` from `main_2d.rs` (lines 114-135). -/
def Ray.new (pos dir : ℝ × ℝ) (rs : ℝ) : Ray :=
  let x := pos.1
  let y := pos.2
  let r := Real.sqrt (x * x + y * y)
  let phi := atan2 y x
  let dr := dir.1 * Real.cos phi + dir.2 * Real.sin phi
  let dphi := (-dir.1 * Real.sin phi + dir.2 * Real.cos phi) / max r 1e-9
  let l := r * r * dphi
  let f := 1 - rs / r
  let dt_dlambda := Real.sqrt ((dr * dr) / (f * f) + (r * r * dphi * dphi) / f)
  let e := f * dt_dlambda
  { x := x, y := y, r := r, phi := phi, dr := dr, dphi := dphi,
    trail := [(x, y)], e := e, l := l }

/-- Claim C2: for every initial position and (not necessarily normalized)
direction, ray construction returns the state prescribed by the spec's
six-step derivation (§4.2): `r = sqrt(x0² + y0²)`, `phi = atan2(y0, x0)`,
`dr = vx·cos phi + vy·sin phi`, `dphi = (-vx·sin phi + vy·cos phi)/max(r, 1e-9)`,
`l = r²·dphi`, and `e = f·sqrt(dr²/f² + r²·dphi²/f)` with `f = 1 - rs/r`. -/
theorem ray_new_matches_derivation (pos dir : ℝ × ℝ) (rs : ℝ) :
    (Ray.new pos dir rs).r = Real.sqrt (pos.1 ^ 2 + pos.2 ^ 2) ∧
    (Ray.new pos dir rs).phi = atan2 pos.2 pos.1 ∧
    (Ray.new pos dir rs).dr
      = dir.1 * Real.cos ((Ray.new pos dir rs).phi)
        + dir.2 * Real.sin ((Ray.new pos dir rs).phi) ∧
    (Ray.new pos dir rs).dphi
      = (-dir.1 * Real.sin ((Ray.new pos dir rs).phi)
          + dir.2 * Real.cos ((Ray.new pos dir rs).phi))
        / max ((Ray.new pos dir rs).r) 1e-9 ∧
    (Ray.new pos dir rs).l = (Ray.new pos dir rs).r ^ 2 * (Ray.new pos dir rs).dphi ∧
    (Ray.new pos dir rs).e
      = (1 - rs / (Ray.new pos dir rs).r)
        * Real.sqrt ((Ray.new pos dir rs).dr ^ 2 / (1 - rs / (Ray.new pos dir rs).r) ^ 2
            + (Ray.new pos dir rs).r ^ 2 * (Ray.new pos dir rs).dphi ^ 2
              / (1 - rs / (Ray.new pos dir rs).r)) := by
  simp only [Ray.new]
  refine ⟨?_, ?_, ?_, ?_, ?_, ?_⟩ <;> ring_nf

/-- Claim C9: every freshly constructed ray starts with a trail containing
exactly one point, its initial Cartesian position, before any integration
step has run. -/
theorem ray_new_initial_trail (pos dir : ℝ × ℝ) (rs : ℝ) :
    (Ray.new pos dir rs).trail = [(pos.1, pos.2)] ∧
    (Ray.new pos dir rs).trail.length = 1 ∧
    (Ray.new pos dir rs).x = pos.1 ∧ (Ray.new pos dir rs).y = pos.2 := by
  simp [Ray.new]

/-- The `BlackHole` struct of `main_2d.rs` (lines 70-74). -/
structure BlackHole where
  position : ℝ × ℝ × ℝ
  mass : ℝ
  r_s : ℝ

/-- `BlackHole::new(position, mass)` from `main_2d.rs` (lines 77-79):
computes `r_s = 2·G·mass/c²` and returns the body.  There is no validity
check of any kind on `mass`. -/
def BlackHole.new (position : ℝ × ℝ × ℝ) (mass : ℝ) : BlackHole :=
  { position := position, mass := mass, r_s := 2 * G * mass / (C * C) }

/-- Counterexample to claim C5: at `mass_kg = -1` the claim requires
construction to fail with `InvalidMass`, but `BlackHole::new` succeeds and
returns a body — one whose Schwarzschild radius is negative. -/
theorem black_hole_new_accepts_nonpositive_mass :
    (-1 : ℝ) ≤ 0 ∧
    (BlackHole.new (0, 0, 0) (-1)).mass = -1 ∧
    (BlackHole.new (0, 0, 0) (-1)).r_s < 0 := by
  refine ⟨by norm_num, rfl, ?_⟩
  simp only [BlackHole.new, G, C]
  norm_num

/-- Claim C5 as amended: mass construction is total — for every `mass_kg`,
including non-positive values, it returns a body with
`r_s = 2·G·mass/c²` (so `r_s > 0` exactly when `mass > 0`); no
`InvalidMass` error path exists in the code. -/
theorem black_hole_new_total (position : ℝ × ℝ × ℝ) (mass : ℝ) :
    (BlackHole.new position mass).mass = mass ∧
    (BlackHole.new position mass).r_s = 2 * G * mass / (C * C) ∧
    (0 < (BlackHole.new position mass).r_s ↔ 0 < mass) := by
  refine ⟨rfl, rfl, ?_⟩
  simp only [BlackHole.new, G, C]
  constructor
  · intro h
    by_contra hm
    push_neg at hm
    nlinarith
  · intro h
    positivity

/-- Spec-side construction, following §4.2 step 4 of the spec word for word:
construction rejects the spawn (`BelowHorizon`, here `none`) whenever
`f = 1 - rs/r ≤ 0`.  The source `Ray::new` contains no such check; this
definition exists only to be compared with it. -/
def Ray.newChecked (pos dir : ℝ × ℝ) (rs : ℝ) : Option Ray :=
  let r := Real.sqrt (pos.1 ^ 2 + pos.2 ^ 2)
  if 1 - rs / r ≤ 0 then none else some (Ray.new pos dir rs)

/-- The Space-key batch spawn loop of `main` in `main_2d.rs` (lines 341-353):
`spawn_count` rays on the vertical line `x = -world_width·0.9`, evenly spread
over `[-world_height·0.8, world_height·0.8]`, all moving in `(speed, 0)`.
Every ray is pushed unconditionally. -/
def spawn_rays (world_width world_height speed rs : ℝ) (spawn_count : ℕ) : List Ray :=
  (List.range spawn_count).map fun (i : ℕ) =>
    let t : ℝ := (i : ℝ) / ((spawn_count : ℝ) - 1)
    let y := -world_height * 0.8 + t * (world_height * 1.6)
    Ray.new (-world_width * 0.9, y) (speed, 0) rs

/-- Counterexample to claim C3: at the initial point `(1, 0)` with `rs = 4`
we have `f = 1 - 4/1 ≤ 0`, so the claim requires construction to fail with
`BelowHorizon` (spec-side: `none`) and a batch spawn to skip the ray; the
source construction succeeds — it returns a ray with `r = 1` and a recorded
trail — and a 2-ray batch whose spawn points all lie inside the horizon
(`r = 0.9 < rs = 100`) still produces 2 rays. -/
theorem ray_new_ignores_horizon_cex :
    Ray.newChecked (1, 0) (0, 1) 4 = none ∧
    (Ray.new (1, 0) (0, 1) 4).r = 1 ∧
    (Ray.new (1, 0) (0, 1) 4).trail = [(1, 0)] ∧
    (spawn_rays 1 0 1 100 2).length = 2 := by
  refine ⟨?_, ?_, ?_, ?_⟩
  · simp only [Ray.newChecked]
    rw [if_pos]
    norm_num [Real.sqrt_one]
  · simp only [Ray.new]
    norm_num [Real.sqrt_one]
  · simp [Ray.new]
  · simp [spawn_rays]

/-- Claim C3 as amended: ray construction is total and never signals
`BelowHorizon` — whenever the initial point satisfies `f = 1 - rs/r ≤ 0`
(where the spec's check would reject, i.e. the spec-side checked
construction returns `none`), the source construction still completes and
returns a ray, and a batch spawn constructs and adds every one of its `n`
rays unconditionally. -/
theorem ray_new_total_below_horizon (pos dir : ℝ × ℝ) (rs : ℝ)
    (h : 1 - rs / Real.sqrt (pos.1 ^ 2 + pos.2 ^ 2) ≤ 0) :
    Ray.newChecked pos dir rs = none ∧
    (Ray.new pos dir rs).trail = [(pos.1, pos.2)] ∧
    ∀ w hgt s n, (spawn_rays w hgt s rs n).length = n := by
  refine ⟨?_, ?_, ?_⟩
  · simp only [Ray.newChecked]
    exact if_pos h
  · simp [Ray.new]
  · intro w hgt s n
    simp [spawn_rays]

/-- Witness for the amended claim C3 at `pos = (1, 0)`, `dir = (0, 1)`,
`rs = 4`. -/
theorem ray_new_total_below_horizon_witness :
    (1 - 4 / Real.sqrt ((1 : ℝ) ^ 2 + (0 : ℝ) ^ 2) ≤ 0) ∧
    (Ray.newChecked (1, 0) (0, 1) 4 = none ∧
     (Ray.new (1, 0) (0, 1) 4).trail = [(1, 0)] ∧
     ∀ w hgt s n, (spawn_rays w hgt s 4 n).length = n) :=
  ⟨by norm_num [Real.sqrt_one],
   ray_new_total_below_horizon (1, 0) (0, 1) 4 (by norm_num [Real.sqrt_one])⟩

/-- The escape radius `max_distance` of `Ray::step` (line 180). -/
def max_distance : ℝ := 2e11

/-- The decimation test of `Ray::step` (lines 185-192): a new point is worth
recording only when its Euclidean distance from the last stored trail point
exceeds `1e8`; an empty trail always records. -/
def should_add_point (trail : List (ℝ × ℝ)) (p : ℝ × ℝ) : Prop :=
  match trail.getLast? with
  | some lp => 1e8 < Real.sqrt ((p.1 - lp.1) ^ 2 + (p.2 - lp.2) ^ 2)
  | none => True

/-- The trail append of `Ray::step` (lines 194-200): push the point, then
evict the oldest point if the length now exceeds 800. -/
def trail_push (trail : List (ℝ × ℝ)) (p : ℝ × ℝ) : List (ℝ × ℝ) :=
  let t := trail ++ [p]
  if 800 < t.length then t.tail else t

open Classical in
/-- `Ray::step(dlam, rs)` from `main_2d.rs` (lines 170-203), returning the
updated ray together with the `bool` the source returns (`false` marks the
ray for removal by `retain_mut`). -/
def Ray.step (ray : Ray) (dlam rs : ℝ) : Ray × Bool :=
  if ray.r ≤ rs then (ray, false)
  else
    let ray1 := rk4_step ray dlam rs
    let ray2 := { ray1 with x := ray1.r * Real.cos ray1.phi,
                            y := ray1.r * Real.sin ray1.phi }
    if max_distance < ray2.r then (ray2, false)
    else
      let current_pos : ℝ × ℝ := (ray2.x, ray2.y)
      let trail1 := if should_add_point ray2.trail current_pos
        then trail_push ray2.trail current_pos
        else ray2.trail
      ({ ray2 with trail := trail1 }, true)

/-- Rust's `Vec::retain_mut` with closure `f`: `f` runs on each element in
order, elements for which it returns `false` are dropped, the rest are kept
(with their mutation) in their original order. -/
def retain_mut (f : Ray → Ray × Bool) : List Ray → List Ray
  | [] => []
  | r :: rest =>
      if (f r).2 then (f r).1 :: retain_mut f rest else retain_mut f rest

/-- One simulation tick of `main` (line 358):
`rays.retain_mut(|ray| ray.step(dlam, sag_a.r_s))`. -/
def tick (dlam rs : ℝ) (rays : List Ray) : List Ray :=
  retain_mut (fun r => Ray.step r dlam rs) rays

@[simp] lemma rk4_step_trail (ray : Ray) (dlam rs : ℝ) :
    (rk4_step ray dlam rs).trail = ray.trail := rfl

@[simp] lemma rk4_step_e (ray : Ray) (dlam rs : ℝ) :
    (rk4_step ray dlam rs).e = ray.e := rfl

@[simp] lemma rk4_step_l (ray : Ray) (dlam rs : ℝ) :
    (rk4_step ray dlam rs).l = ray.l := rfl

lemma step_dead_pre (ray : Ray) (dlam rs : ℝ) (h : ray.r ≤ rs) :
    Ray.step ray dlam rs = (ray, false) := by
  simp only [Ray.step]
  exact if_pos h

lemma step_escape (ray : Ray) (dlam rs : ℝ) (h1 : rs < ray.r)
    (h2 : max_distance < (rk4_step ray dlam rs).r) :
    (Ray.step ray dlam rs).2 = false ∧
    (Ray.step ray dlam rs).1.r = (rk4_step ray dlam rs).r := by
  simp only [Ray.step]
  rw [if_neg (not_le.mpr h1), if_pos h2]
  exact ⟨rfl, rfl⟩

lemma step_alive (ray : Ray) (dlam rs : ℝ) (h1 : rs < ray.r)
    (h2 : (rk4_step ray dlam rs).r ≤ max_distance) :
    (Ray.step ray dlam rs).2 = true ∧
    (Ray.step ray dlam rs).1.r = (rk4_step ray dlam rs).r := by
  simp only [Ray.step]
  rw [if_neg (not_le.mpr h1), if_neg (not_lt.mpr h2)]
  exact ⟨rfl, rfl⟩

/-- Claim C6: neither the integrator nor the lifecycle update ever writes to
the `e` or `l` fields — they stay exactly the values stored at
construction. -/
theorem integration_preserves_e_l (ray : Ray) (dlam rs : ℝ) :
    (rk4_step ray dlam rs).e = ray.e ∧ (rk4_step ray dlam rs).l = ray.l ∧
    ((Ray.step ray dlam rs).1).e = ray.e ∧ ((Ray.step ray dlam rs).1).l = ray.l := by
  refine ⟨rfl, rfl, ?_, ?_⟩ <;>
  · simp only [Ray.step]
    split_ifs <;> rfl

/-- A state that is already at or inside the horizon (`r = 1/2` against
`rs = 1`). -/
def deadRay : Ray :=
  { x := 0, y := 0, r := 1/2, phi := 0, dr := 0, dphi := 0,
    trail := [], e := 0, l := 0 }

/-- A state far out (`r = 2.5e11`) whose step leaves `r` unchanged, past the
escape radius `max_distance = 2e11`. -/
def escRay : Ray :=
  { x := 0, y := 0, r := 2.5e11, phi := 0, dr := 0, dphi := 0,
    trail := [], e := 0, l := 0 }

lemma cexRay_rk4_r : (rk4_step cexRay 1 1).r = 163 / 176 := by
  simp only [rk4_step, geodesic_rhs, add_state, setState, cexRay]
  norm_num

lemma escRay_rk4_r : (rk4_step escRay 1 1).r = 2.5e11 := by
  simp only [rk4_step, geodesic_rhs, add_state, setState, escRay]
  norm_num

/-- Counterexample to claim C4: the state `cexRay` (`r = 3`, radially
infalling) starts outside the horizon `rs = 1`, and the tick's integration
step drives it to `r = 163/176 ≤ rs`; yet `Ray::step` returns `true`, so the
ray survives the tick's `retain_mut` pass and appears in that tick's rendered
snapshot with `r` past the capture boundary.  (It is only removed at the
start of the next tick, by the pre-step horizon test.) -/
theorem captured_ray_rendered_one_tick_cex :
    1 < cexRay.r ∧
    (Ray.step cexRay 1 1).2 = true ∧
    (Ray.step cexRay 1 1).1.r ≤ 1 ∧
    (tick 1 1 [cexRay]).length = 1 := by
  have h1 : (1 : ℝ) < cexRay.r := by norm_num [cexRay]
  have h2 : (rk4_step cexRay 1 1).r ≤ max_distance := by
    rw [cexRay_rk4_r]; norm_num [max_distance]
  obtain ⟨halive, hr⟩ := step_alive cexRay 1 1 h1 h2
  refine ⟨h1, halive, ?_, ?_⟩
  · rw [hr, cexRay_rk4_r]; norm_num
  · simp [tick, retain_mut, halive]

/-- Claim C4 as amended: the escape test is applied to the updated state —
if the step takes `r` past `max_distance` the ray is dropped on that same
tick — but the capture test is applied to the *pre-step* state: a step may
leave the updated `r` at or below `rs` while still reporting the ray alive,
so such a ray is retained and rendered for one tick past the horizon and is
removed only at the start of the following tick, when `step` returns `false`
without integrating. -/
theorem step_classifies_capture_pre_step (ray : Ray) (dlam rs : ℝ) :
    (ray.r ≤ rs → Ray.step ray dlam rs = (ray, false)) ∧
    (rs < ray.r → max_distance < (rk4_step ray dlam rs).r →
      (Ray.step ray dlam rs).2 = false) ∧
    (rs < ray.r → (rk4_step ray dlam rs).r ≤ max_distance →
      (Ray.step ray dlam rs).2 = true ∧
      (Ray.step ray dlam rs).1.r = (rk4_step ray dlam rs).r) :=
  ⟨step_dead_pre ray dlam rs,
   fun h1 h2 => (step_escape ray dlam rs h1 h2).1,
   fun h1 h2 => step_alive ray dlam rs h1 h2⟩

/-- Witness for the amended claim C4, exercising all three branches: a ray
already inside the horizon (`deadRay`), a ray stepping past the escape
radius (`escRay`), and a ray stepping across the horizon while staying alive
(`cexRay`), all against `dlam = 1`, `rs = 1`. -/
theorem step_classifies_capture_pre_step_witness :
    (deadRay.r ≤ 1 ∧ Ray.step deadRay 1 1 = (deadRay, false)) ∧
    ((1 : ℝ) < escRay.r ∧ max_distance < (rk4_step escRay 1 1).r ∧
      (Ray.step escRay 1 1).2 = false) ∧
    ((1 : ℝ) < cexRay.r ∧ (rk4_step cexRay 1 1).r ≤ max_distance ∧
      (Ray.step cexRay 1 1).2 = true ∧
      (Ray.step cexRay 1 1).1.r = (rk4_step cexRay 1 1).r) := by
  have hd : deadRay.r ≤ (1 : ℝ) := by norm_num [deadRay]
  have he1 : (1 : ℝ) < escRay.r := by norm_num [escRay]
  have he2 : max_distance < (rk4_step escRay 1 1).r := by
    rw [escRay_rk4_r]; norm_num [max_distance]
  have hc1 : (1 : ℝ) < cexRay.r := by norm_num [cexRay]
  have hc2 : (rk4_step cexRay 1 1).r ≤ max_distance := by
    rw [cexRay_rk4_r]; norm_num [max_distance]
  exact ⟨⟨hd, (step_classifies_capture_pre_step deadRay 1 1).1 hd⟩,
    ⟨he1, he2, (step_classifies_capture_pre_step escRay 1 1).2.1 he1 he2⟩,
    ⟨hc1, hc2, (step_classifies_capture_pre_step cexRay 1 1).2.2 hc1 hc2⟩⟩

/-- The decimation spacing relation: the next trail point is farther than
`1e8` from the previous one. -/
def far_apart (a b : ℝ × ℝ) : Prop :=
  1e8 < Real.sqrt ((b.1 - a.1) ^ 2 + (b.2 - a.2) ^ 2)

lemma should_add_point_spaced {trail : List (ℝ × ℝ)} {p : ℝ × ℝ}
    (h : should_add_point trail p) :
    ∀ lp ∈ trail.getLast?, far_apart lp p := by
  intro lp hlp
  cases hgl : trail.getLast? with
  | none => rw [hgl] at hlp; exact absurd hlp (by simp)
  | some q =>
      rw [hgl] at hlp
      simp only [Option.mem_def, Option.some.injEq] at hlp
      subst hlp
      simpa [should_add_point, hgl, far_apart] using h

lemma trail_push_length {trail : List (ℝ × ℝ)} {p : ℝ × ℝ}
    (h : trail.length ≤ 800) : (trail_push trail p).length ≤ 800 := by
  simp only [trail_push]
  split_ifs with hl <;> simp only [List.length_tail, List.length_append,
    List.length_singleton] at hl ⊢ <;> omega

lemma trail_push_chain {trail : List (ℝ × ℝ)} {p : ℝ × ℝ}
    (hch : List.Chain' far_apart trail) (hadd : should_add_point trail p) :
    List.Chain' far_apart (trail_push trail p) := by
  have happ : List.Chain' far_apart (trail ++ [p]) := by
    rw [List.chain'_append]
    refine ⟨hch, List.chain'_singleton p, ?_⟩
    intro x hx y hy
    simp only [List.head?_cons, Option.mem_def, Option.some.injEq] at hy
    subst hy
    exact should_add_point_spaced hadd x hx
  simp only [trail_push]
  split_ifs with h
  · exact happ.tail
  · exact happ

/-- Claim C7: the trail of a fresh ray satisfies the trail invariant, and one
lifecycle step preserves it — the length never exceeds the capacity of 800
points, consecutive stored points are farther apart than the `1e8` spacing
threshold, and the step changes the trail only by leaving it alone, appending
one point, or appending one point and evicting the oldest (bounded FIFO). -/
theorem trail_bounded_and_decimated (pos dir : ℝ × ℝ) (ray : Ray) (dlam rs : ℝ)
    (hlen : ray.trail.length ≤ 800)
    (hch : List.Chain' far_apart ray.trail) :
    ((Ray.new pos dir rs).trail.length ≤ 800 ∧
     List.Chain' far_apart (Ray.new pos dir rs).trail) ∧
    ((Ray.step ray dlam rs).1.trail.length ≤ 800 ∧
     List.Chain' far_apart (Ray.step ray dlam rs).1.trail) ∧
    ((Ray.step ray dlam rs).1.trail = ray.trail ∨
     ∃ p, (Ray.step ray dlam rs).1.trail = ray.trail ++ [p] ∨
          (Ray.step ray dlam rs).1.trail = (ray.trail ++ [p]).tail) := by
  refine ⟨⟨by simp [Ray.new], by simp [Ray.new]⟩, ?_⟩
  simp only [Ray.step]
  split_ifs with h1 h2 h3
  · exact ⟨⟨hlen, hch⟩, Or.inl rfl⟩
  · exact ⟨⟨hlen, hch⟩, Or.inl rfl⟩
  · refine ⟨⟨trail_push_length hlen, trail_push_chain hch h3⟩, ?_⟩
    right
    refine ⟨((rk4_step ray dlam rs).r * Real.cos (rk4_step ray dlam rs).phi,
             (rk4_step ray dlam rs).r * Real.sin (rk4_step ray dlam rs).phi), ?_⟩
    show trail_push ray.trail _ = _ ∨ trail_push ray.trail _ = _
    simp only [trail_push]
    split_ifs with h4
    · right; rfl
    · left; rfl
  · exact ⟨⟨hlen, hch⟩, Or.inl rfl⟩

/-- Witness for claim C7 at the concrete state `deadRay` (empty trail) with
`pos = (0,0)`, `dir = (1,0)`, `dlam = 1`, `rs = 1`. -/
theorem trail_bounded_and_decimated_witness :
    deadRay.trail.length ≤ 800 ∧ List.Chain' far_apart deadRay.trail ∧
    (((Ray.new (0, 0) (1, 0) 1).trail.length ≤ 800 ∧
      List.Chain' far_apart (Ray.new (0, 0) (1, 0) 1).trail) ∧
     ((Ray.step deadRay 1 1).1.trail.length ≤ 800 ∧
      List.Chain' far_apart (Ray.step deadRay 1 1).1.trail) ∧
     ((Ray.step deadRay 1 1).1.trail = deadRay.trail ∨
      ∃ p, (Ray.step deadRay 1 1).1.trail = deadRay.trail ++ [p] ∨
           (Ray.step deadRay 1 1).1.trail = (deadRay.trail ++ [p]).tail)) :=
  ⟨by simp [deadRay], by simp [deadRay],
   trail_bounded_and_decimated (0, 0) (1, 0) deadRay 1 1
     (by simp [deadRay]) (by simp [deadRay])⟩

lemma retain_mut_sublist (f : Ray → Ray × Bool) (l : List Ray) :
    (retain_mut f l).Sublist (l.map fun r => (f r).1) := by
  induction l with
  | nil => simp [retain_mut]
  | cons r rest ih =>
      simp only [retain_mut, List.map_cons]
      split_ifs with h
      · exact ih.cons₂ (f r).1
      · exact ih.cons (f r).1

lemma retain_mut_mem (f : Ray → Ray × Bool) (l : List Ray) (r' : Ray) :
    r' ∈ retain_mut f l ↔ ∃ r ∈ l, f r = (r', true) := by
  induction l with
  | nil => simp [retain_mut]
  | cons r rest ih =>
      simp only [retain_mut, List.mem_cons]
      split_ifs with h
      · simp only [List.mem_cons, ih]
        constructor
        · rintro (hr | ⟨s, hs, hfs⟩)
          · exact ⟨r, Or.inl rfl, Prod.ext_iff.mpr ⟨hr.symm, h⟩⟩
          · exact ⟨s, Or.inr hs, hfs⟩
        · rintro ⟨s, (rfl | hs), hfs⟩
          · exact Or.inl (congrArg Prod.fst hfs).symm
          · exact Or.inr ⟨s, hs, hfs⟩
      · rw [ih]
        constructor
        · rintro ⟨s, hs, hfs⟩
          exact ⟨s, Or.inr hs, hfs⟩
        · rintro ⟨s, (rfl | hs), hfs⟩
          · exact absurd (congrArg Prod.snd hfs) h
          · exact ⟨s, hs, hfs⟩

/-- Claim C10: the per-tick retention pass keeps exactly the rays whose step
reported `true`, with their updated states, and preserves their relative
order — the surviving list is a sublist of the stepped list, in
spawn/insertion order. -/
theorem tick_retains_survivors_in_order (dlam rs : ℝ) (rays : List Ray) :
    (tick dlam rs rays).Sublist (rays.map fun r => (Ray.step r dlam rs).1) ∧
    ∀ r', r' ∈ tick dlam rs rays ↔ ∃ r ∈ rays, Ray.step r dlam rs = (r', true) :=
  ⟨retain_mut_sublist _ rays, fun r' => retain_mut_mem _ rays r'⟩

end

end Blackhole
